import Mathlib

set_option maxRecDepth 8000

namespace Frequency

/-- Shallow embedding of the Analyzer struct of frequency.go.  The sync.RWMutex
field only guards concurrent access and has no sequential semantics, so it is
not modelled.  The 256 int64 counters are modelled as integers indexed by byte
value, and the int64 size field as an integer (making a counter overflow would
need more than 2^63 fed bytes). -/
@[ext] structure Analyzer where
  frequency : Fin 256 → ℤ
  size : ℤ

/-- NewAnalyzer returns a zeroed Analyzer. -/
def NewAnalyzer : Analyzer :=
  { frequency := fun _ => 0, size := 0 }

/-- Feed of frequency.go: for each byte of contents, increment that byte
counter and increment size. -/
def Feed (a : Analyzer) (contents : List (Fin 256)) : Analyzer :=
  contents.foldl
    (fun st character =>
      { frequency := fun x => if x = character then st.frequency x + 1 else st.frequency x,
        size := st.size + 1 })
    a

/-- Model of the gob encoded file written by Save: encoding/gob serializes a
[256]int64 value as the array length followed by the element values.  Only the
parts that matter to Restore are modelled: the element count claimed by the
stream and the element values the stream actually carries (a well formed file
has header 256 and exactly 256 payload values; a corrupted or truncated file
may not). -/
structure GobFile where
  header : ℕ
  payload : List ℤ

/-- The file contents produced by a successful encoder.Encode of the counter
array in Save. -/
def encodeFreq (f : Fin 256 → ℤ) : GobFile :=
  { header := 256, payload := List.ofFn f }

/-- Net effect of gob writing decoded elements sequentially into the target
array starting at index 0: index i holds the decoded value when the stream
carried one for it, and the prior value otherwise. -/
def writeSeq (tgt : Fin 256 → ℤ) (vals : List ℤ) : Fin 256 → ℤ :=
  fun i => if h : (i : ℕ) < vals.length then vals.get ⟨i, h⟩ else tgt i

/-- Model of decoder.Decode into the live counter array, after encoding/gob
array decoding: the decoder first checks the length recorded in the stream
against 256 (failing before any element is written on mismatch), then decodes
the elements one by one directly into the array, so a stream that carries the
wrong number of element values fails only after the values it does carry have
been written in place.  Returns the resulting array and the success flag. -/
def decodeFreqInto (f : GobFile) (tgt : Fin 256 → ℤ) : (Fin 256 → ℤ) × Bool :=
  if f.header = 256 then (writeSeq tgt f.payload, f.payload.length == 256)
  else (tgt, false)

/-- Restore of frequency.go.  The file argument is none when os.Open fails.
On a successful decode the size field is increased by the sum of the restored
counters: the source iterates over the array doing size += v without zeroing
size first.  On a decode error the function returns early with size untouched
and with whatever the decoder left in the counter array. -/
def Restore (a : Analyzer) (file : Option GobFile) : Analyzer × Bool :=
  match file with
  | none => (a, false)
  | some f =>
    let d := decodeFreqInto f a.frequency
    if d.2 then
      ({ frequency := d.1, size := a.size + ∑ i : Fin 256, d.1 i }, true)
    else
      ({ a with frequency := d.1 }, false)

/-- Save of frequency.go: on I/O success it writes the gob encoding of the 256
counters (size is not serialized) and leaves the Analyzer untouched.  createOk
is false when os.Create or the encoder write fails, in which case no file
contents are produced and the error is surfaced. -/
def Save (a : Analyzer) (createOk : Bool) : Analyzer × Option GobFile :=
  (a, if createOk then some (encodeFreq a.frequency) else none)

/-- A float64 value as used by the scoring code: either NaN or a finite value,
carried exactly as a rational.  The scoring pipeline never produces an
infinity for the inputs the claims quantify over (every division whose divisor
is zero also has a zero dividend there), so the infinite cases are folded into
nan. -/
inductive Fl where
  | nan : Fl
  | num : ℚ → Fl
deriving DecidableEq

/-- Fueled floor of log2 on naturals, structurally recursive so that kernel
evaluation works; correct whenever fuel is at least n. -/
def log2fuel : ℕ → ℕ → ℕ
  | 0, _ => 0
  | fuel + 1, n => if n ≤ 1 then 0 else log2fuel fuel (n / 2) + 1

/-- Floor of log2 of a natural number (0 for 0). -/
def natLog2 (n : ℕ) : ℕ := log2fuel n n

/-- One step correction of a first guess e0 for the floor of log2 of q: the
result is e0 + 1, e0 - 1 or e0, whichever satisfies 2^e ≤ q (and, when the
guess is within one, q < 2^(e+1) as well). -/
def ilogAdjust (e0 : ℤ) (q : ℚ) : ℤ :=
  if (2:ℚ) ^ (e0 + 1) ≤ q then e0 + 1
  else if q < 2 ^ e0 then e0 - 1
  else e0

/-- Floor of log2 of a positive rational: the unique e with 2^e ≤ q < 2^(e+1),
obtained from the integer logs of numerator and denominator plus a one step
correction. -/
def ilog2 (q : ℚ) : ℤ :=
  ilogAdjust ((natLog2 q.num.natAbs : ℤ) - (natLog2 q.den : ℤ)) q

/-- Round a rational to the nearest integer, ties to even. -/
def rnEven (x : ℚ) : ℤ :=
  if x - (⌊x⌋ : ℚ) < 1/2 then ⌊x⌋
  else if 1/2 < x - (⌊x⌋ : ℚ) then ⌊x⌋ + 1
  else if ⌊x⌋ % 2 = 0 then ⌊x⌋ else ⌊x⌋ + 1

/-- Round a positive rational to 53 significant binary digits, to nearest with
ties to even. -/
def roundPos (q : ℚ) : ℚ :=
  ((rnEven (q * 2 ^ ((52:ℤ) - ilog2 q)) : ℚ)) * 2 ^ (ilog2 q - (52:ℤ))

/-- IEEE 754 binary64 rounding of an exact rational result, modelled with an
unbounded exponent range: every value the scoring pipeline manipulates is far
inside the normal range, so overflow and subnormal rounding cannot occur. -/
def roundF (q : ℚ) : ℚ :=
  if q = 0 then 0
  else if 0 < q then roundPos q
  else -roundPos (-q)

/-- float64 addition. -/
def fadd : Fl → Fl → Fl
  | Fl.num a, Fl.num b => Fl.num (roundF (a + b))
  | _, _ => Fl.nan

/-- float64 subtraction. -/
def fsub : Fl → Fl → Fl
  | Fl.num a, Fl.num b => Fl.num (roundF (a - b))
  | _, _ => Fl.nan

/-- float64 multiplication. -/
def fmul : Fl → Fl → Fl
  | Fl.num a, Fl.num b => Fl.num (roundF (a * b))
  | _, _ => Fl.nan

/-- float64 division.  A zero divisor with the zero dividend arising in this
code gives NaN, as in IEEE 754; either argument NaN gives NaN. -/
def fdiv : Fl → Fl → Fl
  | Fl.num a, Fl.num b => if b = 0 then Fl.nan else Fl.num (roundF (a / b))
  | _, _ => Fl.nan

/-- Go float64 equality test: false whenever either side is NaN. -/
def feq : Fl → Fl → Bool
  | Fl.num a, Fl.num b => decide (a = b)
  | _, _ => false

/-- Go float64 greater than: false whenever either side is NaN. -/
def fgt : Fl → Fl → Bool
  | Fl.num a, Fl.num b => decide (b < a)
  | _, _ => false

/-- math.Abs, exact on binary64. -/
def fabs : Fl → Fl
  | Fl.num a => Fl.num |a|
  | Fl.nan => Fl.nan

/-- The float64 conversion applied to the int64 counters and size. -/
def float64ofInt (v : ℤ) : Fl := Fl.num (roundF (v : ℚ))

/-- max of frequency.go: if a > b then a else b. -/
def max (a b : Fl) : Fl := if fgt a b then a else b

/-- relativeDifference of frequency.go. -/
def relativeDifference (a b : Fl) : Fl :=
  if feq a (Fl.num 0) && feq b (Fl.num 0) then Fl.num 0
  else fdiv (fabs (fsub a b)) (max a b)

/-- One iteration of the scoreFrequencies loop body of frequency.go, with the
loop locals r and t of the source written out: r * (1 - relativeDifference(r, t)). -/
def scoreTerm (ref target : Analyzer) (i : Fin 256) : Fl :=
  fmul (fdiv (float64ofInt (ref.frequency i)) (float64ofInt ref.size))
    (fsub (Fl.num 1)
      (relativeDifference (fdiv (float64ofInt (ref.frequency i)) (float64ofInt ref.size))
        (fdiv (float64ofInt (target.frequency i)) (float64ofInt target.size))))

/-- scoreFrequencies of frequency.go: accumulate the weighted agreement terms
over the byte values 0..255 in order, starting from 0. -/
def scoreFrequencies (ref target : Analyzer) : Fl :=
  (List.finRange 256).foldl (fun score i => fadd score (scoreTerm ref target i)) (Fl.num 0)

/-- Score of frequency.go: build the throwaway target analyzer with one Feed,
then compare.  The receiver is returned unchanged as the post state. -/
def Score (a : Analyzer) (contents : List (Fin 256)) : Analyzer × Fl :=
  let other := Feed NewAnalyzer contents
  (a, scoreFrequencies a other)

/-- ScoreString of frequency.go: Go converts the string to its raw bytes and
calls Score, so the text argument is modelled directly as that byte list. -/
def ScoreString (a : Analyzer) (text : List (Fin 256)) : Analyzer × Fl :=
  Score a text

/-- relativeDifference over exact real (here rational) arithmetic: the
idealization used for the claims that are stated up to floating point
rounding. -/
def relativeDifferenceR (a b : ℚ) : ℚ :=
  if a = 0 ∧ b = 0 then 0 else |a - b| / Max.max a b

/-- scoreFrequencies over exact real arithmetic; meaningful when both sizes
are nonzero (rational division by zero silently gives 0 rather than NaN, so
for the degenerate sizes the Fl version above is the faithful one). -/
def scoreFrequenciesR (ref target : Analyzer) : ℚ :=
  ∑ i : Fin 256,
    ((ref.frequency i : ℚ) / (ref.size : ℚ)) *
      (1 - relativeDifferenceR ((ref.frequency i : ℚ) / (ref.size : ℚ))
        ((target.frequency i : ℚ) / (target.size : ℚ)))

/-- Ten pairwise distinct byte values. -/
def tenDistinct : List (Fin 256) := [0, 1, 2, 3, 4, 5, 6, 7, 8, 9]

/-- The bytes of the string aaabbbccc. -/
def aaabbbccc : List (Fin 256) :=
  List.replicate 3 (97 : Fin 256) ++ List.replicate 3 (98 : Fin 256) ++
    List.replicate 3 (99 : Fin 256)

theorem Feed_nil (a : Analyzer) : Feed a [] = a := rfl

theorem Feed_cons (a : Analyzer) (c : Fin 256) (L : List (Fin 256)) :
    Feed a (c :: L) =
      Feed { frequency := fun x => if x = c then a.frequency x + 1 else a.frequency x,
             size := a.size + 1 } L := rfl

theorem Feed_frequency (L : List (Fin 256)) :
    ∀ (a : Analyzer) (x : Fin 256), (Feed a L).frequency x = a.frequency x + L.count x := by
  induction L with
  | nil => intro a x; simp [Feed]
  | cons c L ih =>
    intro a x
    rw [Feed_cons, ih]
    rw [List.count_cons]
    rcases eq_or_ne x c with h | h
    · subst h
      simp only [if_pos rfl, beq_self_eq_true, if_true]
      push_cast
      ring
    · have h' : ¬(c = x) := fun hh => h hh.symm
      simp only [if_neg h, h, h', beq_iff_eq, if_false]
      push_cast
      ring

theorem Feed_size (L : List (Fin 256)) :
    ∀ a : Analyzer, (Feed a L).size = a.size + L.length := by
  induction L with
  | nil => intro a; simp [Feed]
  | cons c L ih =>
    intro a
    rw [Feed_cons, ih]
    simp
    ring

theorem Feed_append (a : Analyzer) (A B : List (Fin 256)) :
    Feed a (A ++ B) = Feed (Feed a A) B := by
  simp [Feed, List.foldl_append]

/-- C6: feeding A then B, feeding B then A, and feeding the concatenation
A ++ B all give the same counters and size starting from a fresh analyzer. -/
theorem feed_comm_append (A B : List (Fin 256)) :
    Feed (Feed NewAnalyzer A) B = Feed (Feed NewAnalyzer B) A ∧
    Feed (Feed NewAnalyzer A) B = Feed NewAnalyzer (A ++ B) := by
  constructor
  · ext x
    · rw [Feed_frequency, Feed_frequency, Feed_frequency, Feed_frequency]; ring
    · rw [Feed_size, Feed_size, Feed_size, Feed_size]; ring
  · rw [Feed_append]

/-- C9: Score, ScoreString and Save leave the receiver analyzer unchanged:
each returns the receiver itself as its post state, since the source bodies
only read the receiver fields. -/
theorem score_save_frame (a : Analyzer) (contents text : List (Fin 256)) (createOk : Bool) :
    (Score a contents).1 = a ∧ (ScoreString a text).1 = a ∧ (Save a createOk).1 = a :=
  ⟨rfl, rfl, rfl⟩

/-- C1: evaluation at the failing input.  Feed one byte (size 1), then
successfully Restore a saved copy of that same state: the result has size 2
while the counters sum to 1, because Restore adds the decoded counters onto
the old size instead of recomputing it from scratch, so the invariant
size = sum of the counters is broken by a completed Restore on a non fresh
analyzer. -/
theorem restore_breaks_size_invariant :
    ((Restore (Feed NewAnalyzer [(0 : Fin 256)])
        (some (encodeFreq (Feed NewAnalyzer [(0 : Fin 256)]).frequency))).2 = true) ∧
    (Restore (Feed NewAnalyzer [(0 : Fin 256)])
        (some (encodeFreq (Feed NewAnalyzer [(0 : Fin 256)]).frequency))).1.size = 2 ∧
    (∑ i : Fin 256, (Restore (Feed NewAnalyzer [(0 : Fin 256)])
        (some (encodeFreq (Feed NewAnalyzer [(0 : Fin 256)]).frequency))).1.frequency i) = 1 := by
  refine ⟨by decide, by decide, by decide⟩

/-- C2 amended: when Restore fails to open the file the analyzer is returned
untouched, and on any reported error the size field is untouched; a decode
error, however, may leave partially decoded values in the counter array,
because the decoder writes into the live array. -/
theorem restore_error_frame (a : Analyzer) :
    ((Restore a none).1 = a ∧ (Restore a none).2 = false) ∧
    (∀ f : GobFile, (Restore a (some f)).2 = false → (Restore a (some f)).1.size = a.size) := by
  refine ⟨⟨rfl, rfl⟩, ?_⟩
  intro f h
  simp only [Restore] at h ⊢
  cases hd : (decodeFreqInto f a.frequency).2 with
  | false => simp [hd]
  | true => simp [hd] at h

/-- Witness for the amended C2 at a concrete input: restoring a file with an
empty payload into a fresh analyzer reports an error and leaves size
untouched. -/
theorem restore_error_frame_witness :
    (Restore NewAnalyzer (some ⟨256, []⟩)).2 = false ∧
    (Restore NewAnalyzer (some ⟨256, []⟩)).1.size = NewAnalyzer.size :=
  ⟨by decide, (restore_error_frame NewAnalyzer).2 ⟨256, []⟩ (by decide)⟩

/-- C2 counterexample: a stream whose length header is correct but whose
payload is truncated after one value makes Restore report an error only after
counter 0 has been overwritten (1 before the call, 5 after), so the prior
state is not intact on a decode failure. -/
theorem restore_decode_error_mutates :
    ((Restore (Feed NewAnalyzer [(0 : Fin 256)]) (some ⟨256, [5]⟩)).2 = false) ∧
    (Restore (Feed NewAnalyzer [(0 : Fin 256)]) (some ⟨256, [5]⟩)).1.frequency 0 = 5 ∧
    (Feed NewAnalyzer [(0 : Fin 256)]).frequency 0 = 1 := by
  refine ⟨by decide, by decide, by decide⟩

theorem writeSeq_ofFn (tgt : Fin 256 → ℤ) (g : Fin 256 → ℤ) :
    writeSeq tgt (List.ofFn g) = g := by
  funext i
  have hlen : (i : ℕ) < (List.ofFn g).length := by
    rw [List.length_ofFn]; exact i.isLt
  unfold writeSeq
  rw [dif_pos hlen, List.get_ofFn]
  try exact congrArg g (Fin.ext rfl)

theorem decode_mk (payload : List ℤ) (tgt : Fin 256 → ℤ) :
    decodeFreqInto ⟨256, payload⟩ tgt = (writeSeq tgt payload, payload.length == 256) := rfl

theorem decode_encode (g : Fin 256 → ℤ) (tgt : Fin 256 → ℤ) :
    decodeFreqInto (encodeFreq g) tgt = (g, true) := by
  show decodeFreqInto ⟨256, List.ofFn g⟩ tgt = (g, true)
  rw [decode_mk, writeSeq_ofFn, List.length_ofFn]
  rfl

/-- C5: the round trip through Save and Restore into a fresh analyzer always
reproduces the 256 counters entry for entry (only the counter array is
serialized), and sets the restored size to the sum of the saved counters; at
the failing input, a reachable analyzer whose size is 2 while its counters
sum to 1 (feed one byte, then successfully restore its own saved state), the
restored size is therefore 1 and differs from the saved size. -/
theorem save_restore_roundtrip_size_mismatch :
    (∀ a : Analyzer,
      (Restore NewAnalyzer (Save a true).2).2 = true ∧
      (Restore NewAnalyzer (Save a true).2).1.frequency = a.frequency ∧
      (Restore NewAnalyzer (Save a true).2).1.size = ∑ i : Fin 256, a.frequency i) ∧
    ((Restore (Feed NewAnalyzer [(0 : Fin 256)])
        (some (encodeFreq (Feed NewAnalyzer [(0 : Fin 256)]).frequency))).1.size = 2 ∧
      (∑ i : Fin 256, (Restore (Feed NewAnalyzer [(0 : Fin 256)])
        (some (encodeFreq (Feed NewAnalyzer [(0 : Fin 256)]).frequency))).1.frequency i) = 1) := by
  constructor
  · intro a
    have h : Restore NewAnalyzer (Save a true).2 =
        ({ frequency := a.frequency, size := NewAnalyzer.size + ∑ i : Fin 256, a.frequency i },
          true) := by
      show Restore NewAnalyzer (some (encodeFreq a.frequency)) = _
      simp [Restore, decode_encode]
    rw [h]
    refine ⟨rfl, rfl, ?_⟩
    show NewAnalyzer.size + _ = _
    rw [show NewAnalyzer.size = 0 from rfl, zero_add]
  · exact ⟨by decide, by decide⟩

attribute [local semireducible] Rat.mul Rat.add Rat.sub Rat.inv Rat.ofScientific

theorem roundF_zero : roundF 0 = 0 := by
  simp [roundF]

theorem roundF_one : roundF 1 = 1 := by decide

theorem roundF_neg (q : ℚ) : roundF (-q) = -roundF q := by
  rcases lt_trichotomy q 0 with h | h | h
  · have h1 : ¬ q = 0 := ne_of_lt h
    have h2 : ¬ 0 < q := not_lt.mpr h.le
    have h3 : ¬ (-q) = 0 := by simpa using h1
    have h4 : 0 < -q := by linarith
    simp only [roundF, if_neg h1, if_neg h2, if_neg h3, if_pos h4, neg_neg]
  · subst h; simp [roundF]
  · have h1 : ¬ q = 0 := ne_of_gt h
    have h3 : ¬ (-q) = 0 := by simpa using h1
    have h4 : ¬ 0 < -q := by simp; linarith
    simp only [roundF, if_neg h1, if_pos h, if_neg h3, if_neg h4, neg_neg]

theorem fadd_nan_left (y : Fl) : fadd Fl.nan y = Fl.nan := by cases y <;> rfl

theorem fadd_nan_right (x : Fl) : fadd x Fl.nan = Fl.nan := by cases x <;> rfl

theorem fsub_nan_left (y : Fl) : fsub Fl.nan y = Fl.nan := by cases y <;> rfl

theorem fsub_nan_right (x : Fl) : fsub x Fl.nan = Fl.nan := by cases x <;> rfl

theorem fmul_nan_left (y : Fl) : fmul Fl.nan y = Fl.nan := by cases y <;> rfl

theorem fmul_nan_right (x : Fl) : fmul x Fl.nan = Fl.nan := by cases x <;> rfl

theorem fdiv_nan_left (y : Fl) : fdiv Fl.nan y = Fl.nan := by cases y <;> rfl

theorem fdiv_nan_right (x : Fl) : fdiv x Fl.nan = Fl.nan := by cases x <;> rfl

theorem fgt_nan_right (x : Fl) : fgt x Fl.nan = false := by cases x <;> rfl

theorem fabs_nan : fabs Fl.nan = Fl.nan := rfl

theorem max_nan_right (x : Fl) : max x Fl.nan = Fl.nan := by
  unfold max
  rw [fgt_nan_right]
  rfl

theorem feq_nan_left (y : Fl) : feq Fl.nan y = false := by cases y <;> rfl

theorem relativeDifference_nan_left (y : Fl) : relativeDifference Fl.nan y = Fl.nan := by
  unfold relativeDifference
  rw [feq_nan_left, Bool.false_and, if_neg (by simp), fsub_nan_left, fabs_nan, fdiv_nan_left]

theorem relativeDifference_nan_right (x : Fl) : relativeDifference x Fl.nan = Fl.nan := by
  unfold relativeDifference
  rw [feq_nan_left, Bool.and_false, if_neg (by simp), fsub_nan_right, fabs_nan, max_nan_right,
    fdiv_nan_right]

theorem fdiv_zero_zero : fdiv (Fl.num 0) (Fl.num 0) = Fl.nan := by
  simp [fdiv]

theorem fdiv_self_ne_zero (z : ℚ) (hz : z ≠ 0) : fdiv (Fl.num z) (Fl.num z) = Fl.num 1 := by
  simp only [fdiv, if_neg hz, div_self hz, roundF_one]

theorem fdiv_zero_ne_zero (z : ℚ) (hz : z ≠ 0) : fdiv (Fl.num 0) (Fl.num z) = Fl.num 0 := by
  simp only [fdiv, if_neg hz, zero_div, roundF_zero]

theorem fadd_zero_zero : fadd (Fl.num 0) (Fl.num 0) = Fl.num 0 := by
  simp [fadd, roundF_zero]

theorem foldl_fadd_zero (g : Fin 256 → Fl) (hg : ∀ i, g i = Fl.num 0) (l : List (Fin 256)) :
    l.foldl (fun s i => fadd s (g i)) (Fl.num 0) = Fl.num 0 := by
  induction l with
  | nil => rfl
  | cons c l ih =>
    rw [List.foldl_cons, hg c, fadd_zero_zero, ih]

theorem foldl_fadd_nan_acc (g : Fin 256 → Fl) (l : List (Fin 256)) :
    l.foldl (fun s i => fadd s (g i)) Fl.nan = Fl.nan := by
  induction l with
  | nil => rfl
  | cons c l ih =>
    rw [List.foldl_cons, fadd_nan_left, ih]

theorem foldl_fadd_all_nan (g : Fin 256 → Fl) (hg : ∀ i, g i = Fl.nan) (s : Fl)
    (l : List (Fin 256)) (hl : l ≠ []) :
    l.foldl (fun s i => fadd s (g i)) s = Fl.nan := by
  cases l with
  | nil => exact absurd rfl hl
  | cons c l =>
    rw [List.foldl_cons, hg c, fadd_nan_right]
    exact foldl_fadd_nan_acc g l

theorem finRange_ne_nil : List.finRange 256 ≠ [] := by
  intro h
  have : (0 : Fin 256) ∈ List.finRange 256 := List.mem_finRange 0
  rw [h] at this
  exact absurd this (List.not_mem_nil _)

set_option maxHeartbeats 2000000 in
/-- C8: scoring anything with an untrained (fresh) reference yields NaN, and
scoring empty contents against any reference yields NaN: the 0/0 normalized
frequencies are NaN and every loop iteration propagates NaN into the
accumulated score; no error is reported and the value is not coerced to 0. -/
theorem score_nan_untrained_or_empty :
    (∀ contents : List (Fin 256), (Score NewAnalyzer contents).2 = Fl.nan) ∧
    (∀ a : Analyzer, (Score a []).2 = Fl.nan) := by
  constructor
  · intro contents
    show scoreFrequencies NewAnalyzer (Feed NewAnalyzer contents) = Fl.nan
    apply foldl_fadd_all_nan _ _ _ _ finRange_ne_nil
    intro i
    unfold scoreTerm
    have hr : fdiv (float64ofInt (NewAnalyzer.frequency i)) (float64ofInt NewAnalyzer.size) =
        Fl.nan := by
      show fdiv (Fl.num (roundF ((0:ℤ):ℚ))) (Fl.num (roundF ((0:ℤ):ℚ))) = Fl.nan
      rw [show ((0:ℤ):ℚ) = 0 from rfl, roundF_zero, fdiv_zero_zero]
    rw [hr, fmul_nan_left]
  · intro a
    show scoreFrequencies a (Feed NewAnalyzer []) = Fl.nan
    apply foldl_fadd_all_nan _ _ _ _ finRange_ne_nil
    intro i
    unfold scoreTerm
    have ht : fdiv (float64ofInt ((Feed NewAnalyzer []).frequency i))
        (float64ofInt (Feed NewAnalyzer []).size) = Fl.nan := by
      show fdiv (Fl.num (roundF ((0:ℤ):ℚ))) (Fl.num (roundF ((0:ℤ):ℚ))) = Fl.nan
      rw [show ((0:ℤ):ℚ) = 0 from rfl, roundF_zero, fdiv_zero_zero]
    rw [ht, relativeDifference_nan_right, fsub_nan_right, fmul_nan_right]

theorem max_num_comm (a b : ℚ) : max (Fl.num a) (Fl.num b) = max (Fl.num b) (Fl.num a) := by
  unfold max fgt
  rcases lt_trichotomy a b with h | h | h
  · have h2 : ¬ b < a := lt_asymm h
    simp [h, h2]
  · subst h; rfl
  · have h2 : ¬ a < b := lt_asymm h
    simp [h, h2]

/-- C10: relativeDifference is symmetric in its two arguments for nonnegative
finite float64 inputs: the zero test, the absolute difference and the max are
all insensitive to argument order. -/
theorem relativeDifference_symm (a b : ℚ) (ha : 0 ≤ a) (hb : 0 ≤ b) :
    relativeDifference (Fl.num a) (Fl.num b) = relativeDifference (Fl.num b) (Fl.num a) := by
  unfold relativeDifference
  rw [Bool.and_comm]
  rcases Bool.eq_false_or_eq_true (feq (Fl.num b) (Fl.num 0) && feq (Fl.num a) (Fl.num 0)) with
    hc | hc
  · rw [hc]
    all_goals rfl
  · rw [hc]
    simp only [Bool.false_eq_true, if_false]
    have habs : fabs (fsub (Fl.num a) (Fl.num b)) = fabs (fsub (Fl.num b) (Fl.num a)) := by
      show Fl.num |roundF (a - b)| = Fl.num |roundF (b - a)|
      rw [show b - a = -(a - b) by ring, roundF_neg, abs_neg]
    rw [habs, max_num_comm]

/-- Witness for C10 at a concrete input. -/
theorem relativeDifference_symm_witness :
    relativeDifference (Fl.num 1) (Fl.num 2) = relativeDifference (Fl.num 2) (Fl.num 1) :=
  relativeDifference_symm 1 2 (by norm_num) (by norm_num)

theorem log2fuel_correct : ∀ fuel n, 1 ≤ n → n ≤ fuel →
    2 ^ log2fuel fuel n ≤ n ∧ n < 2 ^ (log2fuel fuel n + 1) := by
  intro fuel
  induction fuel with
  | zero => intro n h1 h2; omega
  | succ f ih =>
    intro n h1 h2
    by_cases hn : n ≤ 1
    · have hone : n = 1 := by omega
      subst hone
      simp [log2fuel]
    · have h1' : 1 ≤ n / 2 := by omega
      have h2' : n / 2 ≤ f := by omega
      obtain ⟨lo, hi⟩ := ih (n / 2) h1' h2'
      have heq : log2fuel (f + 1) n = log2fuel f (n / 2) + 1 := by
        simp [log2fuel, hn]
      rw [heq]
      have e1 : 2 ^ (log2fuel f (n / 2) + 1) = 2 * 2 ^ log2fuel f (n / 2) := by ring
      have e2 : 2 ^ (log2fuel f (n / 2) + 1 + 1) = 2 * 2 ^ (log2fuel f (n / 2) + 1) := by ring
      constructor
      · rw [e1]; omega
      · rw [e2, e1]; omega

theorem natLog2_correct (n : ℕ) (h : 1 ≤ n) :
    2 ^ natLog2 n ≤ n ∧ n < 2 ^ (natLog2 n + 1) :=
  log2fuel_correct n n h le_rfl

theorem ilogAdjust_le (e0 : ℤ) (q : ℚ) (hpre : (2:ℚ) ^ (e0 - 1) ≤ q) :
    (2:ℚ) ^ ilogAdjust e0 q ≤ q := by
  unfold ilogAdjust
  split_ifs with h1 h2
  · exact h1
  · exact hpre
  · exact not_lt.mp h2

theorem ilog2_le (q : ℚ) (hq : 0 < q) : (2:ℚ) ^ ilog2 q ≤ q := by
  unfold ilog2
  apply ilogAdjust_le
  have hnum1 : 1 ≤ q.num.natAbs := by
    have hp : 0 < q.num := Rat.num_pos.mpr hq
    omega
  have hden1 : 1 ≤ q.den := q.den_pos
  obtain ⟨ha2, _⟩ := natLog2_correct _ hnum1
  obtain ⟨_, hb2⟩ := natLog2_correct _ hden1
  have hdenQ : (0:ℚ) < (q.den : ℚ) := by exact_mod_cast hden1
  have hpow_pos : (0:ℚ) < 2 ^ ((natLog2 q.den : ℤ) + 1) := zpow_pos (by norm_num) _
  rw [show (natLog2 q.num.natAbs : ℤ) - (natLog2 q.den : ℤ) - 1 =
      (natLog2 q.num.natAbs : ℤ) - ((natLog2 q.den : ℤ) + 1) by ring,
    zpow_sub₀ (by norm_num : (2:ℚ) ≠ 0), div_le_iff hpow_pos]
  have hnum_le : (2:ℚ) ^ (natLog2 q.num.natAbs : ℤ) ≤ (q.num : ℚ) := by
    have c1 : ((2 ^ natLog2 q.num.natAbs : ℕ) : ℚ) ≤ ((q.num.natAbs : ℕ) : ℚ) := by
      exact_mod_cast ha2
    have c2 : ((q.num.natAbs : ℕ) : ℚ) = (q.num : ℚ) := by
      have h0 : |q.num| = q.num := abs_of_pos (Rat.num_pos.mpr hq)
      rw [Int.cast_natAbs, h0]
    rw [c2] at c1
    calc (2:ℚ) ^ (natLog2 q.num.natAbs : ℤ) = ((2 ^ natLog2 q.num.natAbs : ℕ) : ℚ) := by
          rw [zpow_natCast]; push_cast; ring
      _ ≤ (q.num : ℚ) := c1
  have hden_le : (q.den : ℚ) ≤ (2:ℚ) ^ ((natLog2 q.den : ℤ) + 1) := by
    have c1 : ((q.den : ℕ) : ℚ) ≤ ((2 ^ (natLog2 q.den + 1) : ℕ) : ℚ) := by
      exact_mod_cast hb2.le
    calc (q.den : ℚ) ≤ ((2 ^ (natLog2 q.den + 1) : ℕ) : ℚ) := c1
      _ = (2:ℚ) ^ ((natLog2 q.den : ℤ) + 1) := by
          rw [show (natLog2 q.den : ℤ) + 1 = ((natLog2 q.den + 1 : ℕ) : ℤ) by push_cast; ring,
            zpow_natCast]
          push_cast
          ring
  have hq_num : q * (q.den : ℚ) = (q.num : ℚ) := by
    nth_rewrite 1 [← Rat.num_div_den q]
    exact div_mul_cancel₀ _ (ne_of_gt hdenQ)
  calc (2:ℚ) ^ (natLog2 q.num.natAbs : ℤ) ≤ (q.num : ℚ) := hnum_le
    _ = q * (q.den : ℚ) := hq_num.symm
    _ ≤ q * 2 ^ ((natLog2 q.den : ℤ) + 1) := by
        exact mul_le_mul_of_nonneg_left hden_le hq.le

theorem rnEven_ge_floor (x : ℚ) : ⌊x⌋ ≤ rnEven x := by
  unfold rnEven
  split_ifs <;> omega

theorem roundF_pos (q : ℚ) (h : 1 ≤ q) : 0 < roundF q := by
  have hq0 : 0 < q := lt_of_lt_of_le one_pos h
  have hne : ¬ q = 0 := ne_of_gt hq0
  rw [roundF, if_neg hne, if_pos hq0]
  unfold roundPos
  have he : (2:ℚ) ^ ilog2 q ≤ q := ilog2_le q hq0
  have hx : (1:ℚ) ≤ q * 2 ^ ((52:ℤ) - ilog2 q) := by
    have h2 : (2:ℚ) ^ ilog2 q * 2 ^ ((52:ℤ) - ilog2 q) = 2 ^ (52:ℤ) := by
      rw [← zpow_add₀ (by norm_num : (2:ℚ) ≠ 0)]
      ring_nf
    have h3 : (0:ℚ) < 2 ^ ((52:ℤ) - ilog2 q) := zpow_pos (by norm_num) _
    have h4 : (2:ℚ) ^ (52:ℤ) ≤ q * 2 ^ ((52:ℤ) - ilog2 q) := by
      rw [← h2]
      exact mul_le_mul_of_nonneg_right he h3.le
    have h5 : (1:ℚ) ≤ (2:ℚ) ^ (52:ℤ) := by
      rw [show (52:ℤ) = ((52:ℕ) : ℤ) from rfl, zpow_natCast]
      norm_num
    linarith
  have hfl : (1:ℤ) ≤ rnEven (q * 2 ^ ((52:ℤ) - ilog2 q)) := by
    have h6 : (1:ℤ) ≤ ⌊q * 2 ^ ((52:ℤ) - ilog2 q)⌋ := by
      rw [Int.le_floor]
      exact_mod_cast hx
    linarith [rnEven_ge_floor (q * 2 ^ ((52:ℤ) - ilog2 q))]
  have hcast : (0:ℚ) < (rnEven (q * 2 ^ ((52:ℤ) - ilog2 q)) : ℚ) := by
    exact_mod_cast lt_of_lt_of_le zero_lt_one hfl
  exact mul_pos hcast (zpow_pos (by norm_num) _)

theorem float64ofInt_eq (v : ℤ) : float64ofInt v = Fl.num (roundF (v : ℚ)) := rfl

theorem float64ofInt_zero : float64ofInt 0 = Fl.num 0 := by
  rw [float64ofInt_eq, show ((0:ℤ):ℚ) = 0 by norm_num, roundF_zero]

set_option maxHeartbeats 2000000 in
/-- C7: an analyzer trained only on copies of a byte value X scores content
consisting only of copies of a different byte value Y as exactly 0: the X term
has full relative difference (weight times 1 - 1), the Y term has zero
reference weight, and all other terms are 0 times 1. -/
theorem disjoint_score_zero (X Y : Fin 256) (n m : ℕ) (hXY : X ≠ Y)
    (hn : 1 ≤ n) (hm : 1 ≤ m) :
    (Score (Feed NewAnalyzer (List.replicate n X)) (List.replicate m Y)).2 = Fl.num 0 := by
  show scoreFrequencies (Feed NewAnalyzer (List.replicate n X))
    (Feed NewAnalyzer (List.replicate m Y)) = Fl.num 0
  apply foldl_fadd_zero
  intro i
  unfold scoreTerm
  have hfreq : ∀ (k : ℕ) (Z : Fin 256) (j : Fin 256),
      (Feed NewAnalyzer (List.replicate k Z)).frequency j = if j = Z then (k:ℤ) else 0 := by
    intro k Z j
    rw [Feed_frequency, List.count_replicate]
    rcases eq_or_ne j Z with h | h
    · subst h; simp [NewAnalyzer]
    · have h' : ¬(Z = j) := fun hh => h hh.symm
      simp [NewAnalyzer, h, h']
  have hsize : ∀ (k : ℕ) (Z : Fin 256), (Feed NewAnalyzer (List.replicate k Z)).size = (k:ℤ) := by
    intro k Z
    rw [Feed_size]
    simp [NewAnalyzer]
  rw [hfreq n X i, hfreq m Y i, hsize n X, hsize m Y]
  have hzn : roundF ((n:ℤ):ℚ) ≠ 0 := by
    apply ne_of_gt
    apply roundF_pos
    exact_mod_cast hn
  have hzm : roundF ((m:ℤ):ℚ) ≠ 0 := by
    apply ne_of_gt
    apply roundF_pos
    exact_mod_cast hm
  rcases eq_or_ne i X with hiX | hiX
  · subst hiX
    rw [if_pos rfl, if_neg hXY]
    rw [float64ofInt_eq ((n:ℤ)), float64ofInt_zero, float64ofInt_eq ((m:ℤ)),
      fdiv_self_ne_zero _ hzn, fdiv_zero_ne_zero _ hzm]
    decide
  · rw [if_neg hiX]
    rcases eq_or_ne i Y with hiY | hiY
    · subst hiY
      rw [if_pos rfl]
      rw [float64ofInt_eq ((m:ℤ)), float64ofInt_zero, float64ofInt_eq ((n:ℤ)),
        fdiv_zero_ne_zero _ hzn, fdiv_self_ne_zero _ hzm]
      decide
    · rw [if_neg hiY]
      rw [float64ofInt_zero, float64ofInt_eq ((n:ℤ)), float64ofInt_eq ((m:ℤ)),
        fdiv_zero_ne_zero _ hzn, fdiv_zero_ne_zero _ hzm]
      decide

/-- Witness for C7 at a concrete input: trained on three bytes 97, scoring two
bytes 98 gives 0. -/
theorem disjoint_score_zero_witness :
    (Score (Feed NewAnalyzer (List.replicate 3 (97 : Fin 256)))
      (List.replicate 2 (98 : Fin 256))).2 = Fl.num 0 :=
  disjoint_score_zero 97 98 3 2 (by decide) (by norm_num) (by norm_num)

theorem relativeDifferenceR_self (r : ℚ) : relativeDifferenceR r r = 0 := by
  unfold relativeDifferenceR
  split_ifs with h
  · rfl
  · rw [sub_self, abs_zero, zero_div]

theorem sum_count_cast (L : List (Fin 256)) :
    (∑ i : Fin 256, ((L.count i : ℚ))) = L.length := by
  induction L with
  | nil => simp
  | cons c L ih =>
    have hstep : ∀ i : Fin 256,
        (((c :: L).count i : ℚ)) = (L.count i : ℚ) + if i = c then 1 else 0 := by
      intro i
      rw [List.count_cons]
      rcases eq_or_ne i c with h | h
      · subst h; simp
      · have h' : ¬(c = i) := fun hh => h hh.symm
        simp [h, h']
    rw [Finset.sum_congr rfl fun i _ => hstep i, Finset.sum_add_distrib, ih,
      Finset.sum_ite_eq' Finset.univ c (fun _ => (1:ℚ)), if_pos (Finset.mem_univ c),
      List.length_cons]
    push_cast
    ring

theorem feed_fresh_frequency (contents : List (Fin 256)) (i : Fin 256) :
    ((Feed NewAnalyzer contents).frequency i : ℚ) = (contents.count i : ℚ) := by
  rw [Feed_frequency]
  show ((NewAnalyzer.frequency i + (contents.count i : ℤ) : ℤ) : ℚ) = _
  rw [show NewAnalyzer.frequency i = 0 from rfl, zero_add]
  push_cast
  ring

theorem feed_fresh_size (contents : List (Fin 256)) :
    ((Feed NewAnalyzer contents).size : ℚ) = (contents.length : ℚ) := by
  rw [Feed_size]
  rw [show NewAnalyzer.size = 0 from rfl, zero_add]
  push_cast
  ring

theorem target_sum (contents : List (Fin 256)) (hc : contents ≠ []) :
    (∑ i : Fin 256, ((Feed NewAnalyzer contents).frequency i : ℚ) /
      ((Feed NewAnalyzer contents).size : ℚ)) = 1 := by
  have hlen0 : contents.length ≠ 0 := by
    simpa using hc
  have hlenQ : (contents.length : ℚ) ≠ 0 := Nat.cast_ne_zero.mpr hlen0
  rw [Finset.sum_congr rfl (fun i _ => by rw [feed_fresh_frequency, feed_fresh_size]),
    ← Finset.sum_div, sum_count_cast, div_self hlenQ]

theorem foldl_split (l : List (Fin 256)) (F : Fl → Fin 256 → Fl) (s : Fl) (k : ℕ) :
    l.foldl F s = (l.drop k).foldl F ((l.take k).foldl F s) := by
  conv_lhs => rw [← List.take_append_drop k l]
  rw [List.foldl_append]

set_option maxHeartbeats 8000000 in
/-- C3 amended: scoring a nonempty S against an analyzer trained by one
Feed(S) makes every relativeDifference term 0, so the score is the sum of the
reference normalized frequencies, which is exactly 1 in exact arithmetic; the
binary64 value actually returned is the floating point sum of the rounded
normalized frequencies, which equals 1.0 for inputs such as aaabbbccc but not
for every nonempty S. -/
theorem selfScore_exact_one :
    (∀ S : List (Fin 256), S ≠ [] →
      scoreFrequenciesR (Feed NewAnalyzer S) (Feed NewAnalyzer S) = 1) ∧
    (Score (Feed NewAnalyzer aaabbbccc) aaabbbccc).2 = Fl.num 1 := by
  constructor
  · intro S hS
    unfold scoreFrequenciesR
    rw [Finset.sum_congr rfl fun i _ => by rw [relativeDifferenceR_self, sub_zero, mul_one]]
    exact target_sum S hS
  · have hstep : (Score (Feed NewAnalyzer aaabbbccc) aaabbbccc).2 =
        ((List.finRange 256).drop 128).foldl
          (fun score i => fadd score
            (scoreTerm (Feed NewAnalyzer aaabbbccc) (Feed NewAnalyzer aaabbbccc) i))
          (((List.finRange 256).take 128).foldl
            (fun score i => fadd score
              (scoreTerm (Feed NewAnalyzer aaabbbccc) (Feed NewAnalyzer aaabbbccc) i))
            (Fl.num 0)) :=
      foldl_split _ _ _ 128
    have hc1 : ((List.finRange 256).take 128).foldl
        (fun score i => fadd score
          (scoreTerm (Feed NewAnalyzer aaabbbccc) (Feed NewAnalyzer aaabbbccc) i))
        (Fl.num 0) = Fl.num 1 := by decide
    have hc2 : ((List.finRange 256).drop 128).foldl
        (fun score i => fadd score
          (scoreTerm (Feed NewAnalyzer aaabbbccc) (Feed NewAnalyzer aaabbbccc) i))
        (Fl.num 1) = Fl.num 1 := by decide
    rw [hstep, hc1, hc2]

/-- Witness for the amended C3 at a concrete input. -/
theorem selfScore_exact_one_witness :
    scoreFrequenciesR (Feed NewAnalyzer [(0 : Fin 256)]) (Feed NewAnalyzer [(0 : Fin 256)]) = 1 :=
  selfScore_exact_one.1 [(0 : Fin 256)] (by decide)

set_option maxHeartbeats 8000000 in
/-- C3 counterexample: training a fresh analyzer on ten pairwise distinct
bytes and scoring that same content does not return exactly 1.0: every
relativeDifference term is 0, but the ten rounded terms (each the binary64
value nearest 1/10) sum under binary64 addition to the predecessor of 1,
(2^53 - 1) / 2^53 = 0.9999999999999999. -/
theorem selfScore_fp_below_one :
    (Score (Feed NewAnalyzer tenDistinct) tenDistinct).2 =
      Fl.num ((2 ^ 53 - 1) / 2 ^ 53) ∧
    (Score (Feed NewAnalyzer tenDistinct) tenDistinct).2 ≠ Fl.num 1 := by
  have hstep : (Score (Feed NewAnalyzer tenDistinct) tenDistinct).2 =
      ((List.finRange 256).drop 128).foldl
        (fun score i => fadd score
          (scoreTerm (Feed NewAnalyzer tenDistinct) (Feed NewAnalyzer tenDistinct) i))
        (((List.finRange 256).take 128).foldl
          (fun score i => fadd score
            (scoreTerm (Feed NewAnalyzer tenDistinct) (Feed NewAnalyzer tenDistinct) i))
          (Fl.num 0)) :=
    foldl_split _ _ _ 128
  have hc1 : ((List.finRange 256).take 128).foldl
      (fun score i => fadd score
        (scoreTerm (Feed NewAnalyzer tenDistinct) (Feed NewAnalyzer tenDistinct) i))
      (Fl.num 0) = Fl.num ((2 ^ 53 - 1) / 2 ^ 53) := by decide
  have hc2 : ((List.finRange 256).drop 128).foldl
      (fun score i => fadd score
        (scoreTerm (Feed NewAnalyzer tenDistinct) (Feed NewAnalyzer tenDistinct) i))
      (Fl.num ((2 ^ 53 - 1) / 2 ^ 53)) = Fl.num ((2 ^ 53 - 1) / 2 ^ 53) := by decide
  have h1 : (Score (Feed NewAnalyzer tenDistinct) tenDistinct).2 =
      Fl.num ((2 ^ 53 - 1) / 2 ^ 53) := by
    rw [hstep, hc1, hc2]
  refine ⟨h1, ?_⟩
  rw [h1]
  intro h
  have h2 : ((2:ℚ) ^ 53 - 1) / 2 ^ 53 = 1 := by injection h
  norm_num at h2

theorem relativeDifferenceR_nonneg (r t : ℚ) (hr : 0 ≤ r) :
    0 ≤ relativeDifferenceR r t := by
  unfold relativeDifferenceR
  split_ifs with h
  · exact le_refl 0
  · exact div_nonneg (abs_nonneg _) (le_trans hr (le_max_left r t))

theorem relativeDifferenceR_le_one (r t : ℚ) (hr : 0 ≤ r) (ht : 0 ≤ t) :
    relativeDifferenceR r t ≤ 1 := by
  unfold relativeDifferenceR
  split_ifs with h
  · norm_num
  · have hmax : 0 < Max.max r t := by
      rcases not_and_or.mp h with h1 | h1
      · exact lt_of_lt_of_le (lt_of_le_of_ne hr (Ne.symm h1)) (le_max_left r t)
      · exact lt_of_lt_of_le (lt_of_le_of_ne ht (Ne.symm h1)) (le_max_right r t)
    rw [div_le_one hmax]
    rcases le_total r t with hle | hle
    · rw [abs_of_nonpos (sub_nonpos.mpr hle), max_eq_right hle]
      linarith
    · rw [abs_of_nonneg (sub_nonneg.mpr hle), max_eq_left hle]
      linarith

theorem termR_nonneg (r t : ℚ) (hr : 0 ≤ r) (ht : 0 ≤ t) :
    0 ≤ r * (1 - relativeDifferenceR r t) :=
  mul_nonneg hr (by linarith [relativeDifferenceR_le_one r t hr ht])

theorem termR_le (r t : ℚ) (hr : 0 ≤ r) (ht : 0 ≤ t) :
    r * (1 - relativeDifferenceR r t) ≤ t := by
  unfold relativeDifferenceR
  split_ifs with h
  · rw [h.1]
    norm_num [ht]
  · have hmax : 0 < Max.max r t := by
      rcases not_and_or.mp h with h1 | h1
      · exact lt_of_lt_of_le (lt_of_le_of_ne hr (Ne.symm h1)) (le_max_left r t)
      · exact lt_of_lt_of_le (lt_of_le_of_ne ht (Ne.symm h1)) (le_max_right r t)
    rcases le_total r t with hle | hle
    · have hmx : Max.max r t = t := max_eq_right hle
      have ht0 : 0 < t := by rw [← hmx]; exact hmax
      rw [hmx, abs_of_nonpos (sub_nonpos.mpr hle)]
      have hrw : 1 - -(r - t) / t = r / t := by
        field_simp
      rw [hrw, ← mul_div_assoc, div_le_iff ht0]
      exact mul_self_le_mul_self hr hle
    · have hmx : Max.max r t = r := max_eq_left hle
      have hr0 : 0 < r := by rw [← hmx]; exact hmax
      rw [hmx, abs_of_nonneg (sub_nonneg.mpr hle)]
      have hrw : 1 - (r - t) / r = t / r := by
        field_simp
      rw [hrw, mul_comm, div_mul_cancel₀ _ (ne_of_gt hr0)]

/-- C4: for a reference analyzer with positive size and nonnegative counters
and nonempty scored contents, the score lies in [0, 1]: each loop term is
between 0 and the target normalized frequency of its byte, and the target
normalized frequencies sum to 1.  Stated over the exact real arithmetic
idealization of scoreFrequencies, matching the claims floating point rounding
tolerance. -/
theorem score_in_unit_interval (a : Analyzer) (contents : List (Fin 256))
    (hfreq : ∀ i, 0 ≤ a.frequency i) (hsize : 0 < a.size) (hc : contents ≠ []) :
    0 ≤ scoreFrequenciesR a (Feed NewAnalyzer contents) ∧
      scoreFrequenciesR a (Feed NewAnalyzer contents) ≤ 1 := by
  have hr : ∀ i : Fin 256, 0 ≤ (a.frequency i : ℚ) / (a.size : ℚ) := by
    intro i
    apply div_nonneg
    · exact_mod_cast hfreq i
    · exact_mod_cast hsize.le
  have ht : ∀ i : Fin 256, 0 ≤ ((Feed NewAnalyzer contents).frequency i : ℚ) /
      ((Feed NewAnalyzer contents).size : ℚ) := by
    intro i
    rw [feed_fresh_frequency, feed_fresh_size]
    exact div_nonneg (Nat.cast_nonneg _) (Nat.cast_nonneg _)
  constructor
  · unfold scoreFrequenciesR
    apply Finset.sum_nonneg
    intro i _
    exact termR_nonneg _ _ (hr i) (ht i)
  · unfold scoreFrequenciesR
    have step := Finset.sum_le_sum (s := Finset.univ)
      (fun (i : Fin 256) _ => termR_le _ _ (hr i) (ht i))
    exact le_trans step (le_of_eq (target_sum contents hc))

/-- Witness for C4 at a concrete input. -/
theorem score_in_unit_interval_witness :
    0 ≤ scoreFrequenciesR (Feed NewAnalyzer [(0 : Fin 256)]) (Feed NewAnalyzer [(1 : Fin 256)]) ∧
      scoreFrequenciesR (Feed NewAnalyzer [(0 : Fin 256)])
        (Feed NewAnalyzer [(1 : Fin 256)]) ≤ 1 :=
  score_in_unit_interval (Feed NewAnalyzer [(0 : Fin 256)]) [(1 : Fin 256)]
    (by decide) (by decide) (by decide)

end Frequency
